import Mathlib

/-!
Verification of the habittohelper content-generation pipeline.

Strings are modelled as `List Char`.  JavaScript number arithmetic in the
scorer is modelled exactly over `ℚ`, with `Math.round` as Mathlib's `round`
(both are ⌊x + 1/2⌋).  The SEO scorer, link placer, link dedupe pass, the
write-stage retry logic and the step dispatcher are embedded from
`src/lib/neuronwriter.ts`, `src/lib/pipeline.ts` and
`supabase/functions/process-batch/index.ts`.
-/

/-- JS `toLowerCase`, character by character. -/
def toLowerStr (s : List Char) : List Char := s.map Char.toLower

/-- Counting loop behind `countOccurrences`: number of non-overlapping,
leftmost-first occurrences of the pattern `pat` in the content, as the global
regex match does.  The `skip` counter walks past the remainder of a match. -/
def countOccAux (pat : List Char) : List Char → Nat → Nat
  | [], _ => 0
  | _ :: rest, n + 1 => countOccAux pat rest n
  | c :: rest, 0 =>
    if pat.isPrefixOf (c :: rest) then 1 + countOccAux pat rest (pat.length - 1)
    else countOccAux pat rest 0

/-- `countOccurrences(content, term)` from the scorer: the number of matches of
the escaped term as a global regex.  An empty pattern matches once at every
position, giving `content.length + 1`, as `"abc".match(//g)` does. -/
def countOccurrences (content term : List Char) : Nat :=
  if term.isEmpty then content.length + 1 else countOccAux term content 0

/-- JS `String.prototype.includes`: substring test. -/
def listContains (content pat : List Char) : Bool :=
  match content with
  | [] => pat.isEmpty
  | _ :: rest => pat.isPrefixOf content || listContains rest pat

/-- The fields of the SEO-analysis payload (`NeuronWriterAnalysis`) that the
scorer and the write stage consume. -/
structure NeuronWriterAnalysis where
  recommendedTerms : List (List Char)
  competitorHeadings : List (List Char)
  wordCountTarget : Nat
deriving DecidableEq

/-- Result record of `calculateScore` (`NeuronWriterScore`, restricted to the
fields the pipeline reads). -/
structure NeuronWriterScore where
  score : Nat
  maxScore : Nat
  percentage : ℤ
  missingTerms : List (List Char)
deriving DecidableEq

/-- `analysis.recommendedTerms.slice(0, 10)`. -/
def criticalTermsOf (a : NeuronWriterAnalysis) : List (List Char) :=
  a.recommendedTerms.take 10

/-- `analysis.recommendedTerms.slice(10, 25)`. -/
def importantTermsOf (a : NeuronWriterAnalysis) : List (List Char) :=
  (a.recommendedTerms.drop 10).take 15

/-- `analysis.recommendedTerms.slice(25)`. -/
def supportingTermsOf (a : NeuronWriterAnalysis) : List (List Char) :=
  a.recommendedTerms.drop 25

/-- One iteration of the critical-terms loop of `calculateScore`: accumulates
the critical score and the `missingCritical` list. -/
def criticalStep (contentLower : List Char) (acc : Nat × List (List Char))
    (term : List Char) : Nat × List (List Char) :=
  let count := countOccurrences contentLower (toLowerStr term)
  if 3 ≤ count then (acc.1 + 3, acc.2)
  else if 1 ≤ count then (acc.1 + count, acc.2 ++ [term])
  else (acc.1, acc.2 ++ [term])

/-- One iteration of the important-terms loop of `calculateScore`. -/
def importantStep (contentLower : List Char) (acc : Nat × List (List Char))
    (term : List Char) : Nat × List (List Char) :=
  let count := countOccurrences contentLower (toLowerStr term)
  if 1 ≤ count then (acc.1 + min count 2, acc.2)
  else (acc.1, acc.2 ++ [term])

/-- One iteration of the supporting-terms loop of `calculateScore`
(`contentLower.includes(term.toLowerCase())`). -/
def supportingStep (contentLower : List Char) (acc : Nat) (term : List Char) : Nat :=
  if listContains contentLower (toLowerStr term) then acc + 1 else acc

/-- `calculateScore(content, analysis)` from `neuronwriter.ts` /
`process-batch/index.ts` (the two copies are identical on these fields). -/
def calculateScore (content : List Char) (analysis : NeuronWriterAnalysis) :
    NeuronWriterScore :=
  let contentLower := toLowerStr content
  let criticalTerms := criticalTermsOf analysis
  let importantTerms := importantTermsOf analysis
  let supportingTerms := supportingTermsOf analysis
  let critical := criticalTerms.foldl (criticalStep contentLower) (0, [])
  let important := importantTerms.foldl (importantStep contentLower) (0, [])
  let supportingScore := supportingTerms.foldl (supportingStep contentLower) 0
  let maxCritical := criticalTerms.length * 3
  let maxImportant := importantTerms.length * 2
  let maxSupporting := supportingTerms.length
  let criticalPct : ℚ :=
    if 0 < maxCritical then (critical.1 : ℚ) / (maxCritical : ℚ) * 50 else 50
  let importantPct : ℚ :=
    if 0 < maxImportant then (important.1 : ℚ) / (maxImportant : ℚ) * 30 else 30
  let supportingPct : ℚ :=
    if 0 < maxSupporting then (supportingScore : ℚ) / (maxSupporting : ℚ) * 20 else 20
  { score := critical.1 + important.1 + supportingScore
    maxScore := maxCritical + maxImportant + maxSupporting
    percentage := round (criticalPct + importantPct + supportingPct)
    missingTerms := critical.2 ++ important.2.take 5 }

/-- Case-insensitive occurrence count of a term in the content, the common
primitive of the tier point rules. -/
def termCount (content term : List Char) : Nat :=
  countOccurrences (toLowerStr content) (toLowerStr term)

/-- Points the spec gives a critical term seen `c` times: 3 at `c ≥ 3`,
partial credit `c` for 1–2 occurrences. -/
def specCriticalPoints (c : Nat) : Nat := min c 3

/-- Points the spec gives an important term seen `c` times: up to 2, full
credit at `c ≥ 2`. -/
def specImportantPoints (c : Nat) : Nat := min c 2

/-- Critical tier score as the spec words it: sum of per-term points over the
first ten ranked terms. -/
def specCriticalScore (content : List Char) (a : NeuronWriterAnalysis) : Nat :=
  ((criticalTermsOf a).map (fun t => specCriticalPoints (termCount content t))).sum

/-- Important tier score as the spec words it. -/
def specImportantScore (content : List Char) (a : NeuronWriterAnalysis) : Nat :=
  ((importantTermsOf a).map (fun t => specImportantPoints (termCount content t))).sum

/-- Supporting tier score as the spec words it: one point per term present. -/
def specSupportingScore (content : List Char) (a : NeuronWriterAnalysis) : Nat :=
  ((supportingTermsOf a).filter
    (fun t => listContains (toLowerStr content) (toLowerStr t))).length

/-- The percentage as the spec words it: rounded weighted blend
`(critical/max)·50 + (important/max)·30 + (supporting/max)·20`, with an empty
tier contributing its full weight. -/
def specPercentage (content : List Char) (a : NeuronWriterAnalysis) : ℤ :=
  round (
    (if criticalTermsOf a = [] then (50 : ℚ)
      else (specCriticalScore content a : ℚ) / ((criticalTermsOf a).length * 3 : ℚ) * 50) +
    (if importantTermsOf a = [] then (30 : ℚ)
      else (specImportantScore content a : ℚ) / ((importantTermsOf a).length * 2 : ℚ) * 30) +
    (if supportingTermsOf a = [] then (20 : ℚ)
      else (specSupportingScore content a : ℚ) / ((supportingTermsOf a).length : ℚ) * 20))

lemma criticalFold_spec (cl : List Char) (l : List (List Char)) (s : Nat)
    (m : List (List Char)) :
    l.foldl (criticalStep cl) (s, m) =
      (s + (l.map (fun t => specCriticalPoints (countOccurrences cl (toLowerStr t)))).sum,
        m ++ l.filter (fun t => countOccurrences cl (toLowerStr t) < 3)) := by
  induction l generalizing s m with
  | nil => simp
  | cons t l ih =>
    simp only [List.foldl_cons, List.map_cons, List.sum_cons, List.filter_cons]
    rw [criticalStep]
    by_cases h3 : 3 ≤ countOccurrences cl (toLowerStr t)
    · rw [if_pos h3, ih]
      have hp : specCriticalPoints (countOccurrences cl (toLowerStr t)) = 3 := by
        unfold specCriticalPoints; omega
      have hf : ¬ countOccurrences cl (toLowerStr t) < 3 := by omega
      simp [hp, hf]
      omega
    · rw [if_neg h3]
      have hp : specCriticalPoints (countOccurrences cl (toLowerStr t)) =
          countOccurrences cl (toLowerStr t) := by
        unfold specCriticalPoints; omega
      have hf : countOccurrences cl (toLowerStr t) < 3 := by omega
      by_cases h1 : 1 ≤ countOccurrences cl (toLowerStr t)
      · rw [if_pos h1, ih]
        simp [hp, hf]
        omega
      · rw [if_neg h1, ih]
        have h0 : countOccurrences cl (toLowerStr t) = 0 := by omega
        simp [hp, hf, h0, specCriticalPoints]

lemma importantFold_spec (cl : List Char) (l : List (List Char)) (s : Nat)
    (m : List (List Char)) :
    l.foldl (importantStep cl) (s, m) =
      (s + (l.map (fun t => specImportantPoints (countOccurrences cl (toLowerStr t)))).sum,
        m ++ l.filter (fun t => countOccurrences cl (toLowerStr t) = 0)) := by
  induction l generalizing s m with
  | nil => simp
  | cons t l ih =>
    simp only [List.foldl_cons, List.map_cons, List.sum_cons, List.filter_cons]
    rw [importantStep]
    by_cases h1 : 1 ≤ countOccurrences cl (toLowerStr t)
    · rw [if_pos h1, ih]
      have hp : specImportantPoints (countOccurrences cl (toLowerStr t)) =
          min (countOccurrences cl (toLowerStr t)) 2 := rfl
      have hf : ¬ countOccurrences cl (toLowerStr t) = 0 := by omega
      simp [hp, hf]
      omega
    · rw [if_neg h1, ih]
      have h0 : countOccurrences cl (toLowerStr t) = 0 := by omega
      simp [specImportantPoints, h0]

lemma supportingFold_spec (cl : List Char) (l : List (List Char)) (s : Nat) :
    l.foldl (supportingStep cl) s =
      s + (l.filter (fun t => listContains cl (toLowerStr t))).length := by
  induction l generalizing s with
  | nil => simp
  | cons t l ih =>
    simp only [List.foldl_cons, List.filter_cons]
    rw [supportingStep]
    by_cases h : listContains cl (toLowerStr t) = true
    · rw [if_pos h, ih]
      simp [h]
      omega
    · rw [if_neg h, ih]
      simp [h]

/-- C1: for every content string and analysis the scorer's percentage equals
the spec's weighted blend — the ranked term list is split by rank into the
first 10 (critical, up to 3 points each, full credit at ≥3 occurrences,
partial credit 1–2), the next 15 (important, up to 2 points, full credit at
≥2) and the remainder (supporting, 1 point for presence), and the returned
percentage is the rounded sum of `(critical/max)·50 + (important/max)·30 +
(supporting/max)·20`, an empty tier contributing its full weight. -/
theorem calculateScore_percentage_spec (content : List Char)
    (analysis : NeuronWriterAnalysis) :
    (calculateScore content analysis).percentage = specPercentage content analysis := by
  unfold calculateScore specPercentage
  simp only [criticalFold_spec, importantFold_spec, supportingFold_spec, Nat.zero_add]
  congr 1
  by_cases hc : criticalTermsOf analysis = [] <;>
    by_cases hi : importantTermsOf analysis = [] <;>
      by_cases hs : supportingTermsOf analysis = []
  all_goals
    simp [hc, hi, hs, specCriticalScore, specImportantScore, specSupportingScore,
      termCount, List.length_pos.2, Nat.mul_pos, List.map_map]

/-- Thirty distinct one-character terms: ten critical, fifteen important, five
supporting. -/
def c2terms : List (List Char) :=
  ("abcdefghijklmnopqrstuvwxy".toList ++ "z0123".toList).map (fun c => [c])

def c2analysis : NeuronWriterAnalysis :=
  { recommendedTerms := c2terms, competitorHeadings := [], wordCountTarget := 0 }

/-- Content containing each critical term exactly three times and none of the
other terms. -/
def c2content : List Char := "aaabbbcccdddeeefffggghhhiiijjj".toList

lemma c2_percentage_eq : (calculateScore c2content c2analysis).percentage = 50 := by
  have h1 : ((criticalTermsOf c2analysis).foldl
      (criticalStep (toLowerStr c2content)) (0, [])).1 = 30 := by decide
  have h2 : ((importantTermsOf c2analysis).foldl
      (importantStep (toLowerStr c2content)) (0, [])).1 = 0 := by decide
  have h3 : (supportingTermsOf c2analysis).foldl
      (supportingStep (toLowerStr c2content)) 0 = 0 := by decide
  have l1 : (criticalTermsOf c2analysis).length = 10 := by decide
  have l2 : (importantTermsOf c2analysis).length = 15 := by decide
  have l3 : (supportingTermsOf c2analysis).length = 5 := by decide
  simp only [calculateScore, h1, h2, h3, l1, l2, l3]
  norm_num [round_eq]

/-- C2 fails on the code: a term list with 10 critical, 15 important and 5
supporting terms, with content containing every critical term three times and
no important or supporting term, scores 50, not 70 — the supporting tier is
non-empty, so it contributes 0/20 rather than the empty-tier default of 20. -/
theorem c2_counterexample :
    c2analysis.recommendedTerms.length = 30 ∧
    (criticalTermsOf c2analysis).all (fun t => 3 ≤ termCount c2content t) = true ∧
    ((importantTermsOf c2analysis) ++ (supportingTermsOf c2analysis)).all
      (fun t => termCount c2content t = 0) = true ∧
    (calculateScore c2content c2analysis).percentage = 50 ∧
    (calculateScore c2content c2analysis).percentage ≠ 70 :=
  ⟨by decide, by decide, by decide, c2_percentage_eq, by rw [c2_percentage_eq]; decide⟩

lemma sum_map_eq_const {α : Type} {l : List α} {f : α → Nat} {c : Nat}
    (h : ∀ x ∈ l, f x = c) : (l.map f).sum = c * l.length := by
  induction l with
  | nil => simp
  | cons x l ih =>
    have hx := h x (by simp)
    have hr := ih (fun y hy => h y (by simp [hy]))
    simp [hx, hr]
    ring

/-- C2 amended: for an analysis whose ranked term list has exactly 10 critical
and 15 important terms and an *empty* supporting tier (25 terms in all), and
content in which every critical term occurs at least 3 times and no important
term occurs, the percentage is 50 + 0 + 20 (the last by the empty-tier
default) = 70. -/
theorem c2_amended (content : List Char) (a : NeuronWriterAnalysis)
    (hlen : a.recommendedTerms.length = 25)
    (hcrit : ∀ t ∈ criticalTermsOf a, 3 ≤ termCount content t)
    (himp : ∀ t ∈ importantTermsOf a, termCount content t = 0) :
    (calculateScore content a).percentage = 70 := by
  have hsupp : supportingTermsOf a = [] := by
    unfold supportingTermsOf
    rw [List.drop_eq_nil_iff, hlen]
  have hclen : (criticalTermsOf a).length = 10 := by
    unfold criticalTermsOf
    rw [List.length_take, hlen]
    omega
  have hilen : (importantTermsOf a).length = 15 := by
    unfold importantTermsOf
    rw [List.length_take, List.length_drop, hlen]
    omega
  have hcall : ∀ t ∈ criticalTermsOf a,
      specCriticalPoints (countOccurrences (toLowerStr content) (toLowerStr t)) = 3 := by
    intro t ht
    have := hcrit t ht
    unfold termCount at this
    unfold specCriticalPoints
    omega
  have hiall : ∀ t ∈ importantTermsOf a,
      specImportantPoints (countOccurrences (toLowerStr content) (toLowerStr t)) = 0 := by
    intro t ht
    have := himp t ht
    unfold termCount at this
    unfold specImportantPoints
    omega
  have hcsum : ((criticalTermsOf a).map
      (fun t => specCriticalPoints (countOccurrences (toLowerStr content) (toLowerStr t)))).sum
      = 30 := by
    rw [sum_map_eq_const hcall, hclen]
  have hisum : ((importantTermsOf a).map
      (fun t => specImportantPoints (countOccurrences (toLowerStr content) (toLowerStr t)))).sum
      = 0 := by
    rw [sum_map_eq_const hiall]
    ring
  simp only [calculateScore, criticalFold_spec, importantFold_spec, supportingFold_spec,
    Nat.zero_add, hcsum, hisum, hclen, hilen, hsupp]
  norm_num [round_eq]

def c2analysis25 : NeuronWriterAnalysis :=
  { recommendedTerms := c2terms.take 25, competitorHeadings := [], wordCountTarget := 0 }

theorem c2_amended_witness : (calculateScore c2content c2analysis25).percentage = 70 :=
  c2_amended c2content c2analysis25 (by decide) (by decide) (by decide)

def c3analysis : NeuronWriterAnalysis :=
  { recommendedTerms := [['a']], competitorHeadings := [], wordCountTarget := 0 }

def c3content : List Char := ['a']

/-- C3 fails on the code: a critical term that occurs exactly once in the
content *is* included in `missingTerms` (the loop pushes any critical term
with fewer than three occurrences), while the claim says a critical term
occurring once or twice is not included. -/
theorem c3_counterexample :
    termCount c3content ['a'] = 1 ∧
    (calculateScore c3content c3analysis).missingTerms = [['a']] :=
  ⟨by decide, by decide⟩

/-- C3 amended: `missingTerms` is exactly the critical terms with *fewer than
three* occurrences (in rank order), followed by at most the first five
important terms with zero occurrences. -/
theorem c3_amended (content : List Char) (a : NeuronWriterAnalysis) :
    (calculateScore content a).missingTerms =
      (criticalTermsOf a).filter (fun t => termCount content t < 3) ++
      ((importantTermsOf a).filter (fun t => termCount content t = 0)).take 5 := by
  simp only [calculateScore, criticalFold_spec, importantFold_spec]
  simp [termCount]

/-- The literal URL prefix of the internal-link regex
`\[([^\]]+)\]\((https:\/\/www\.habitto\.com[^)]+)\)`. -/
def urlPrefix : List Char := "https://www.habitto.com".toList

/-- Attempt to match the internal-link regex at the start of `l`.  Both
character classes are negated single-character classes followed by a required
closing character, so greedy matching is equivalent to taking the run up to
the first `]` (resp. `)`).  Returns the anchor text and the URL. -/
def tryMatch (l : List Char) : Option (List Char × List Char) :=
  match l with
  | [] => none
  | c :: rest =>
    if c = '[' then
      let text := rest.takeWhile (fun ch => ch ≠ ']')
      if text.isEmpty then none
      else
        match rest.dropWhile (fun ch => ch ≠ ']') with
        | ']' :: '(' :: rest3 =>
          if urlPrefix.isPrefixOf rest3 then
            let rest4 := rest3.drop urlPrefix.length
            let tail := rest4.takeWhile (fun ch => ch ≠ ')')
            if tail.isEmpty then none
            else
              match rest4.dropWhile (fun ch => ch ≠ ')') with
              | ')' :: _ => some (text, urlPrefix ++ tail)
              | _ => none
          else none
        | _ => none
    else none

/-- Total character length of a matched link `[text](url)`. -/
def matchLen (text url : List Char) : Nat := text.length + url.length + 4

/-- URL normalization of the dedupe pass: `url.replace(/\/$/, '')` strips one
trailing slash. -/
def normalizeUrl (url : List Char) : List Char :=
  if url.getLast? = some '/' then url.dropLast else url

/-- Markdown rendering `[text](url)` of a link. -/
def renderLink (text url : List Char) : List Char :=
  '[' :: (text ++ ']' :: '(' :: (url ++ [')']))

/-- The scan loop of `dedupeInternalLinks`: JS `String.replace` with a global
regex scans the *original* string left to right; a matched link whose
normalized URL was already seen is replaced by its anchor text, otherwise it
is kept and its URL recorded.  The `skip` counter walks past the remainder of
a match. -/
def dedupeAux (seen : List (List Char)) : List Char → Nat → List Char
  | [], _ => []
  | _ :: rest, n + 1 => dedupeAux seen rest n
  | c :: rest, 0 =>
    match tryMatch (c :: rest) with
    | some (text, url) =>
      if normalizeUrl url ∈ seen then
        text ++ dedupeAux seen rest (matchLen text url - 1)
      else
        renderLink text url ++ dedupeAux (normalizeUrl url :: seen) rest (matchLen text url - 1)
    | none => c :: dedupeAux seen rest 0

/-- `dedupeInternalLinks` from `process-batch/index.ts`. -/
def dedupeInternalLinks (content : List Char) : List Char := dedupeAux [] content 0

/-- A parsed document: plain characters interleaved with internal links. -/
inductive LinkItem where
  | plainChar (c : Char)
  | link (text : List Char) (url : List Char)
deriving DecidableEq

/-- Parse the document into plain characters and internal links, by the same
left-to-right scan the replace performs, with no dedup decisions. -/
def parseAux : List Char → Nat → List LinkItem
  | [], _ => []
  | _ :: rest, n + 1 => parseAux rest n
  | c :: rest, 0 =>
    match tryMatch (c :: rest) with
    | some (text, url) => .link text url :: parseAux rest (matchLen text url - 1)
    | none => .plainChar c :: parseAux rest 0

def parseLinks (content : List Char) : List LinkItem := parseAux content 0

/-- The dedupe transformation stated declaratively, as the spec words it: in
document order, the first link with each normalized URL is kept; every
subsequent link with the same normalized URL has its markup stripped and its
anchor text retained as plain prose. -/
def dedupeItems (seen : List (List Char)) : List LinkItem → List LinkItem
  | [] => []
  | .plainChar c :: rest => .plainChar c :: dedupeItems seen rest
  | .link text url :: rest =>
    if normalizeUrl url ∈ seen then
      text.map .plainChar ++ dedupeItems seen rest
    else
      .link text url :: dedupeItems (normalizeUrl url :: seen) rest

/-- Render parsed items back to text. -/
def renderItems : List LinkItem → List Char
  | [] => []
  | .plainChar c :: rest => c :: renderItems rest
  | .link text url :: rest => renderLink text url ++ renderItems rest

/-- The links of a document, in document order. -/
def linksOf (content : List Char) : List (List Char × List Char) :=
  (parseLinks content).filterMap (fun i =>
    match i with
    | .link t u => some (t, u)
    | .plainChar _ => none)

lemma renderItems_append (a b : List LinkItem) :
    renderItems (a ++ b) = renderItems a ++ renderItems b := by
  induction a with
  | nil => simp [renderItems]
  | cons i a ih =>
    cases i with
    | plainChar c => simp [renderItems, ih]
    | link t u => simp [renderItems, ih]

lemma renderItems_plainMap (t : List Char) :
    renderItems (t.map LinkItem.plainChar) = t := by
  induction t with
  | nil => simp [renderItems]
  | cons c t ih => simp [renderItems, ih]

lemma dedupeAux_eq_renderItems (content : List Char) :
    ∀ (n : Nat) (seen : List (List Char)),
      dedupeAux seen content n = renderItems (dedupeItems seen (parseAux content n)) := by
  induction content with
  | nil =>
    intro n seen
    simp [dedupeAux, parseAux, dedupeItems, renderItems]
  | cons c rest ih =>
    intro n seen
    cases n with
    | succ m => simp only [dedupeAux, parseAux]; exact ih m seen
    | zero =>
      rw [dedupeAux, parseAux]
      cases htm : tryMatch (c :: rest) with
      | none => simp [htm, dedupeItems, renderItems, ih 0 seen]
      | some p =>
        obtain ⟨text, url⟩ := p
        simp only [htm]
        by_cases hseen : normalizeUrl url ∈ seen
        · simp [hseen, dedupeItems, renderItems_append, renderItems_plainMap,
            ih (matchLen text url - 1) seen]
        · simp [hseen, dedupeItems, renderItems, renderItems_append,
            ih (matchLen text url - 1) (normalizeUrl url :: seen)]

/-- Document with the same normalized URL linked three times (with and
without the trailing slash). -/
def exThree : List Char :=
  ("x[A](https://www.habitto.com/a/)y[A](https://www.habitto.com/a)" ++
    "z[A](https://www.habitto.com/a/)w").toList

def exThreeExpected : List Char :=
  "x[A](https://www.habitto.com/a/)yAzAw".toList

/-- C6: the dedupe pass equals the declarative parse–dedupe–render
description — in document order the first occurrence of each normalized URL
(trailing slash stripped) is kept and every later link with the same
normalized URL is rewritten to its bare anchor text — and on a document with
the same URL linked three times it leaves exactly one linked occurrence and
two plain-text occurrences of the anchor text. -/
theorem dedupeInternalLinks_spec :
    (∀ content : List Char,
      dedupeInternalLinks content = renderItems (dedupeItems [] (parseLinks content))) ∧
    dedupeInternalLinks exThree = exThreeExpected ∧
    (linksOf exThree).length = 3 ∧
    ((linksOf exThree).map (fun p => normalizeUrl p.2)).all
      (fun u => u = "https://www.habitto.com/a".toList) = true ∧
    linksOf exThreeExpected = [(['A'], "https://www.habitto.com/a/".toList)] ∧
    countOccurrences exThreeExpected ['A'] = 3 :=
  ⟨fun content => dedupeAux_eq_renderItems content 0 [],
    by decide, by decide, by decide, by decide, by decide⟩

/-- A document whose second (duplicate) link has an anchor text containing
`[`: stripping its markup exposes new link markup for the second pass. -/
def c10doc : List Char :=
  ("[x](https://www.habitto.com/a)" ++
    "[A[x](https://www.habitto.com/a)](https://www.habitto.com/a)").toList

/-- C10 fails on the code: `dedupeInternalLinks` is not idempotent.  On
`c10doc` the first pass strips the duplicate link whose anchor text is
`A[x`, leaving `...A[x](https://www.habitto.com/a)`, which the second pass
recognizes as a further duplicate link and strips again. -/
theorem dedupe_not_idempotent :
    dedupeInternalLinks (dedupeInternalLinks c10doc) ≠ dedupeInternalLinks c10doc ∧
    dedupeInternalLinks c10doc =
      "[x](https://www.habitto.com/a)A[x](https://www.habitto.com/a)".toList ∧
    dedupeInternalLinks (dedupeInternalLinks c10doc) =
      "[x](https://www.habitto.com/a)Ax".toList :=
  ⟨by decide, by decide, by decide⟩

lemma tryMatch_none_of_not_bracket {c : Char} (rest : List Char) (h : c ≠ '[') :
    tryMatch (c :: rest) = none := by
  simp [tryMatch, h]

lemma dedupeAux_fixpoint (content : List Char) (h : '[' ∉ content) :
    ∀ seen : List (List Char), dedupeAux seen content 0 = content := by
  induction content with
  | nil => intro seen; simp [dedupeAux]
  | cons c rest ih =>
    intro seen
    have hc : c ≠ '[' := by
      intro hx
      exact h (by simp [hx])
    have hr : '[' ∉ rest := fun hx => h (by simp [hx])
    rw [dedupeAux, tryMatch_none_of_not_bracket rest hc]
    simp [ih hr seen]

/-- C10 amended: the dedupe pass is *not* idempotent in general (stripping a
duplicate link's markup can expose new link markup that a second pass also
rewrites, see `dedupe_not_idempotent`); it is idempotent on every document
that contains no `[` character — such a document contains no link markup and
is a fixed point of the pass. -/
theorem dedupe_idempotent_of_no_bracket (s : List Char) (h : '[' ∉ s) :
    dedupeInternalLinks (dedupeInternalLinks s) = dedupeInternalLinks s := by
  unfold dedupeInternalLinks
  rw [dedupeAux_fixpoint s h, dedupeAux_fixpoint s h]

theorem dedupe_idempotent_witness :
    dedupeInternalLinks (dedupeInternalLinks "abc".toList) =
      dedupeInternalLinks "abc".toList :=
  dedupe_idempotent_of_no_bracket "abc".toList (by decide)

/-- JS `content.split('\n\n')`: paragraphs, splitting at each leftmost
non-overlapping occurrence of the two-newline separator. -/
def splitParas : List Char → List (List Char)
  | [] => [[]]
  | '\n' :: '\n' :: rest => [] :: splitParas rest
  | c :: rest =>
    match splitParas rest with
    | g :: gs => (c :: g) :: gs
    | [] => [[c]]

/-- An entry of the fixed link catalog (`HabittoPage`, the fields
`process-batch/index.ts` uses). -/
structure HabittoPage where
  url : List Char
  keywords : List (List Char)
  priority : Nat

/-- The fixed link catalog `HABITTO_PAGES` of `process-batch/index.ts`. -/
def HABITTO_PAGES : List HabittoPage :=
  [ { url := "https://www.habitto.com/account/".toList
      keywords := ["貯蓄口座", "金利", "0.5%", "年利", "預金", "貯める", "利息", "高金利",
        "定期預金", "ネット銀行", "普通預金"].map String.toList
      priority := 1 }
  , { url := "https://www.habitto.com/card/".toList
      keywords := ["デビットカード", "キャッシュバック", "0.8%", "還元", "Visa", "ATM",
        "使いすぎ", "キャッシュレス", "決済"].map String.toList
      priority := 1 }
  , { url := "https://www.habitto.com/advisor/".toList
      keywords := ["アドバイザー", "相談", "無料相談", "FP", "NISA", "保険", "ライフプラン",
        "投資信託", "iDeCo", "老後資金", "ファイナンシャル"].map String.toList
      priority := 1 }
  , { url := "https://www.habitto.com/people-like-you/".toList
      keywords := ["レビュー", "口コミ", "体験談", "評判", "利用者", "ユーザー"].map String.toList
      priority := 2 }
  , { url := "https://www.habitto.com/".toList
      keywords := ["Habitto", "ハビト"].map String.toList
      priority := 3 } ]

structure Opportunity where
  paragraph : Nat
  anchorText : List Char
  url : List Char
  priority : Nat
deriving DecidableEq

structure LinkSuggestion where
  paragraph : Nat
  anchorText : List Char
  url : List Char
deriving DecidableEq

/-- First pass of `suggestLinks`: every (page, first matched keyword) pair
per paragraph, skipping headings, paragraphs shorter than 30 characters and
paragraphs that already contain a link. -/
def allOpportunities (content : List Char) : List Opportunity :=
  (splitParas content).enum.flatMap (fun p =>
    if p.2.head? = some '#' ∨ p.2.length < 30 ∨ listContains p.2 "](http".toList then []
    else
      HABITTO_PAGES.filterMap (fun page =>
        (page.keywords.find? (fun kw => listContains p.2 kw)).map
          (fun kw => ⟨p.1, kw, page.url, page.priority⟩)))

/-- The comparator of the second pass: priority ascending, then paragraph
position ascending.  JS `Array.prototype.sort` is stable, modelled by a
stable insertion sort under this total preorder. -/
def oppLE (a b : Opportunity) : Prop :=
  a.priority < b.priority ∨ (a.priority = b.priority ∧ a.paragraph ≤ b.paragraph)

instance : DecidableRel oppLE := fun a b => by unfold oppLE; infer_instance

instance : IsTotal Opportunity oppLE := ⟨by intro a b; unfold oppLE; omega⟩

instance : IsTrans Opportunity oppLE := ⟨by intro a b c; unfold oppLE; omega⟩

/-- One iteration of the greedy selection loop of `suggestLinks`: skip once
five links are selected (the loop breaks there), skip used URLs, and — after
the first two selections — skip any insertion point within three paragraphs
of an already-chosen one. -/
def selectStep (acc : List LinkSuggestion × List (List Char)) (opp : Opportunity) :
    List LinkSuggestion × List (List Char) :=
  if 5 ≤ acc.1.length then acc
  else if opp.url ∈ acc.2 then acc
  else if (acc.1.any (fun s => ((s.paragraph : Int) - (opp.paragraph : Int)).natAbs < 3))
      ∧ 2 ≤ acc.1.length then acc
  else
    (acc.1 ++ [{ paragraph := opp.paragraph, anchorText := opp.anchorText, url := opp.url }],
      acc.2 ++ [opp.url])

/-- `suggestLinks` from `process-batch/index.ts`. -/
def suggestLinks (content : List Char) : List LinkSuggestion :=
  ((List.insertionSort oppLE (allOpportunities content)).foldl selectStep ([], [])).1

/-- After the first two selections, every selected insertion point is at
least three paragraphs away from every earlier-chosen insertion point. -/
def spacingOK (l : List LinkSuggestion) : Prop :=
  ∀ i j : Nat, (hi : i < l.length) → (hj : j < l.length) → i < j → 2 ≤ j →
    3 ≤ ((l[i].paragraph : Int) - (l[j].paragraph : Int)).natAbs

/-- The projection of a considered candidate to the returned record. -/
def oppToSuggestion (o : Opportunity) : LinkSuggestion :=
  { paragraph := o.paragraph, anchorText := o.anchorText, url := o.url }

/-- Invariant of the greedy selection state. -/
def SelInv (acc : List LinkSuggestion × List (List Char)) : Prop :=
  acc.2 = acc.1.map (fun s => s.url) ∧
  (acc.1.map (fun s => s.url)).Nodup ∧
  acc.1.length ≤ 5 ∧
  spacingOK acc.1

lemma selectStep_cases (acc : List LinkSuggestion × List (List Char)) (opp : Opportunity) :
    selectStep acc opp = acc ∨
    (selectStep acc opp = (acc.1 ++ [oppToSuggestion opp], acc.2 ++ [opp.url]) ∧
      acc.1.length < 5 ∧ opp.url ∉ acc.2 ∧
      ¬((acc.1.any (fun s => ((s.paragraph : Int) - (opp.paragraph : Int)).natAbs < 3))
        ∧ 2 ≤ acc.1.length)) := by
  unfold selectStep
  by_cases h5 : 5 ≤ acc.1.length
  · left; rw [if_pos h5]
  · rw [if_neg h5]
    by_cases hu : opp.url ∈ acc.2
    · left; rw [if_pos hu]
    · rw [if_neg hu]
      by_cases hn : (acc.1.any (fun s => ((s.paragraph : Int) - (opp.paragraph : Int)).natAbs < 3))
          ∧ 2 ≤ acc.1.length
      · left; rw [if_pos hn]
      · right
        rw [if_neg hn]
        exact ⟨rfl, by omega, hu, hn⟩

lemma selectFold_inv (l : List Opportunity) :
    ∀ acc, SelInv acc → SelInv (l.foldl selectStep acc) := by
  induction l with
  | nil => intro acc h; exact h
  | cons opp l ih =>
    intro acc h
    rw [List.foldl_cons]
    apply ih
    rcases selectStep_cases acc opp with heq | ⟨heq, h5, hu, hg⟩
    · rw [heq]; exact h
    · rw [heq]
      obtain ⟨h1, h2, h3, h4⟩ := h
      have hu' : opp.url ∉ acc.1.map (fun s => s.url) := h1 ▸ hu
      refine ⟨?_, ?_, ?_, ?_⟩
      · simp [h1, oppToSuggestion]
      · simp [List.nodup_append, h2, hu', oppToSuggestion]
      · simp
        omega
      · intro i j hi hj hij hj2
        have hj' : j < acc.1.length + 1 := by simpa using hj
        by_cases hjl : j < acc.1.length
        · have hio : i < acc.1.length := by omega
          rw [List.getElem_append_left hio, List.getElem_append_left hjl]
          exact h4 i j hio hjl hij hj2
        · have hjeq : j = acc.1.length := by omega
          have hio : i < acc.1.length := by omega
          rw [List.getElem_append_left hio]
          subst hjeq
          rw [List.getElem_concat_length acc.1 (oppToSuggestion opp) _ rfl]
          have hlen2 : 2 ≤ acc.1.length := by omega
          have hnoany : ¬ (acc.1.any
              (fun s => ((s.paragraph : Int) - (opp.paragraph : Int)).natAbs < 3)) := by
            intro ha
            exact hg ⟨ha, hlen2⟩
          rw [List.any_eq_true] at hnoany
          push_neg at hnoany
          have hmem : acc.1[i] ∈ acc.1 := List.getElem_mem hio
          have := hnoany (acc.1[i]) hmem
          simp only [ne_eq, decide_eq_true_eq] at this
          simp only [oppToSuggestion]
          exact Nat.not_lt.mp this

lemma selectFold_proj (l : List Opportunity) :
    ∀ acc, ∃ opps : List Opportunity, opps.Sublist l ∧
      (l.foldl selectStep acc).1 = acc.1 ++ opps.map oppToSuggestion := by
  induction l with
  | nil => intro acc; exact ⟨[], List.nil_sublist _, by simp⟩
  | cons opp l ih =>
    intro acc
    rw [List.foldl_cons]
    rcases selectStep_cases acc opp with heq | ⟨heq, _, _, _⟩
    · obtain ⟨opps, hs, he⟩ := ih acc
      rw [heq]
      exact ⟨opps, hs.cons opp, he⟩
    · obtain ⟨opps, hs, he⟩ := ih (acc.1 ++ [oppToSuggestion opp], acc.2 ++ [opp.url])
      rw [heq]
      refine ⟨opp :: opps, hs.cons₂ opp, ?_⟩
      rw [he]
      simp

/-- An entry of the link catalog `HABITTO_PAGES` of `neuronwriter.ts` (the
fields its `suggestLinks` uses). -/
structure HabittoPageNW where
  url : List Char
  title : List Char
  keywords : List (List Char)
  anchors : List (List Char)
  priority : Nat

/-- The link catalog `HABITTO_PAGES` of `neuronwriter.ts`. -/
def HABITTO_PAGES_NW : List HabittoPageNW :=
  [ { url := "https://www.habitto.com/account/".toList
      title := "貯蓄口座".toList
      keywords := ["貯蓄口座", "金利", "0.5%", "年利", "預金", "貯める", "利息", "高金利",
        "定期預金", "ネット銀行", "普通預金"].map String.toList
      anchors := ["Habittoの貯蓄口座", "年利0.5%の口座", "高金利の貯蓄口座",
        "条件なしで年利0.5%"].map String.toList
      priority := 1 }
  , { url := "https://www.habitto.com/card/".toList
      title := "デビットカード".toList
      keywords := ["デビットカード", "キャッシュバック", "0.8%", "還元", "Visa", "ATM",
        "使いすぎ", "キャッシュレス", "決済"].map String.toList
      anchors := ["Habittoのデビットカード", "0.8%還元のデビットカード",
        "キャッシュバック付きカード"].map String.toList
      priority := 1 }
  , { url := "https://www.habitto.com/advisor/".toList
      title := "Habittoアドバイザー".toList
      keywords := ["アドバイザー", "相談", "無料相談", "FP", "NISA", "保険", "ライフプラン",
        "投資信託", "iDeCo", "老後資金", "ファイナンシャル"].map String.toList
      anchors := ["Habittoアドバイザー", "無料のファイナンシャルアドバイザー",
        "プロに相談"].map String.toList
      priority := 1 }
  , { url := "https://www.habitto.com/people-like-you/".toList
      title := "お客様の声".toList
      keywords := ["レビュー", "口コミ", "体験談", "評判", "利用者", "ユーザー"].map String.toList
      anchors := ["実際に使っている人の声", "お客様の体験談", "Habittoユーザーの声"].map String.toList
      priority := 2 }
  , { url := "https://www.habitto.com/".toList
      title := "Habitto公式".toList
      keywords := ["Habitto", "ハビト"].map String.toList
      anchors := ["Habitto", "Habitto公式サイト"].map String.toList
      priority := 3 }
  , { url := "https://www.habitto.com/app/".toList
      title := "アプリ".toList
      keywords := ["アプリ", "ダウンロード", "iOS", "Android", "スマホ"].map String.toList
      anchors := ["Habittoアプリ", "アプリをダウンロード", "スマホで管理"].map String.toList
      priority := 3 }
  ]

structure LinkSuggestionNW where
  paragraph : Nat
  anchorText : List Char
  url : List Char
  pageTitle : List Char
  priority : Nat
deriving DecidableEq

/-- One paragraph of the selection loop of `neuronwriter.ts`'s
`suggestLinks`: the first page that is unused, not blocked by the
second-half rule for priority-1 pages, and with a matching keyword yields
one suggestion (the loops break after the first push per paragraph). -/
def nwSelectStep (halfway : Nat) (acc : List LinkSuggestionNW × List (List Char))
    (p : Nat × List Char) : List LinkSuggestionNW × List (List Char) :=
  if p.2.head? = some '#' ∨ p.2.length < 50 ∨ listContains p.2 "](http".toList then acc
  else
    match HABITTO_PAGES_NW.find? (fun page =>
        decide (page.url ∉ acc.2 ∧ ¬(page.priority = 1 ∧ p.1 < halfway) ∧
          (page.keywords.any (fun kw => listContains p.2 kw)) = true)) with
    | none => acc
    | some page =>
      let kw := (page.keywords.find? (fun kw => listContains p.2 kw)).getD []
      let anchor := (page.anchors.find? (fun a => listContains p.2 a)).getD kw
      (acc.1 ++ [⟨p.1, anchor, page.url, page.title, page.priority⟩], acc.2 ++ [page.url])

/-- Priority-ascending comparator of `neuronwriter.ts`'s final
`sort((a, b) => a.priority - b.priority)`. -/
def nwLE (a b : LinkSuggestionNW) : Prop := a.priority ≤ b.priority

instance : DecidableRel nwLE := fun a b => by unfold nwLE; infer_instance

instance : IsTotal LinkSuggestionNW nwLE := ⟨by intro a b; unfold nwLE; omega⟩

instance : IsTrans LinkSuggestionNW nwLE := ⟨by intro a b c; unfold nwLE; omega⟩

/-- `suggestLinks` from `neuronwriter.ts`: build per-paragraph suggestions,
stable-sort by priority, and keep at most six. -/
def suggestLinksNW (content : List Char) : List LinkSuggestionNW :=
  let paragraphs := splitParas content
  let halfway := paragraphs.length / 2
  let built := paragraphs.enum.foldl (nwSelectStep halfway) ([], [])
  (List.insertionSort nwLE built.1).take 6

lemma nwSelectStep_cases (halfway : Nat) (acc : List LinkSuggestionNW × List (List Char))
    (p : Nat × List Char) :
    nwSelectStep halfway acc p = acc ∨
    ∃ s : LinkSuggestionNW, s.url ∉ acc.2 ∧
      nwSelectStep halfway acc p = (acc.1 ++ [s], acc.2 ++ [s.url]) := by
  unfold nwSelectStep
  by_cases hskip : p.2.head? = some '#' ∨ p.2.length < 50 ∨ listContains p.2 "](http".toList
  · left; rw [if_pos hskip]
  · rw [if_neg hskip]
    cases hfind : HABITTO_PAGES_NW.find? (fun page =>
        decide (page.url ∉ acc.2 ∧ ¬(page.priority = 1 ∧ p.1 < halfway) ∧
          (page.keywords.any (fun kw => listContains p.2 kw)) = true)) with
    | none => left; rfl
    | some page =>
      right
      have hp := List.find?_some hfind
      simp only [decide_eq_true_eq] at hp
      exact ⟨⟨p.1, ((page.anchors.find? (fun a => listContains p.2 a)).getD
        ((page.keywords.find? (fun kw => listContains p.2 kw)).getD [])), page.url,
        page.title, page.priority⟩, hp.1, rfl⟩

lemma nwFold_inv (l : List (Nat × List Char)) (halfway : Nat) :
    ∀ acc : List LinkSuggestionNW × List (List Char),
      acc.2 = acc.1.map (fun s => s.url) → (acc.1.map (fun s => s.url)).Nodup →
      (l.foldl (nwSelectStep halfway) acc).2 =
          ((l.foldl (nwSelectStep halfway) acc).1.map (fun s => s.url)) ∧
        ((l.foldl (nwSelectStep halfway) acc).1.map (fun s => s.url)).Nodup := by
  induction l with
  | nil => intro acc h1 h2; exact ⟨h1, h2⟩
  | cons p l ih =>
    intro acc h1 h2
    rw [List.foldl_cons]
    rcases nwSelectStep_cases halfway acc p with heq | ⟨s, hs, heq⟩
    · rw [heq]; exact ih acc h1 h2
    · rw [heq]
      have hs' : s.url ∉ acc.1.map (fun t => t.url) := h1 ▸ hs
      apply ih
      · simp [h1]
      · simp [List.nodup_append, h2, hs']

/-- C5 amended: both `suggestLinks` implementations return no page URL twice
and never exceed their fixed maximum (5 in `process-batch/index.ts`, 6 in
`neuronwriter.ts`); the process-batch implementation additionally considers
candidates in the stable (priority ascending, paragraph ascending) order —
the output is the projection of a sublist of the sorted candidate list — and
after the first two selections every further insertion point is at least
three paragraphs away from every already-chosen one.  The ordering and
spacing guarantees hold only for the process-batch copy: the
`neuronwriter.ts` copy selects per paragraph with no proximity check (see
`suggestLinksNW_counterexample`). -/
theorem suggestLinks_spec (content : List Char) :
    ((suggestLinks content).map (fun s => s.url)).Nodup ∧
    (suggestLinks content).length ≤ 5 ∧
    spacingOK (suggestLinks content) ∧
    ((suggestLinksNW content).map (fun s => s.url)).Nodup ∧
    (suggestLinksNW content).length ≤ 6 ∧
    ∃ opps : List Opportunity,
      opps.Sublist (List.insertionSort oppLE (allOpportunities content)) ∧
      List.Pairwise oppLE opps ∧
      suggestLinks content = opps.map oppToSuggestion := by
  have hinv : SelInv (((List.insertionSort oppLE (allOpportunities content)).foldl
      selectStep ([], []))) := by
    apply selectFold_inv
    refine ⟨rfl, List.nodup_nil, by simp, ?_⟩
    intro i j hi hj hij hj2
    simp at hi
  obtain ⟨h1, h2, h3, h4⟩ := hinv
  obtain ⟨opps, hs, he⟩ := selectFold_proj
    (List.insertionSort oppLE (allOpportunities content)) ([], [])
  have hnwnodup : ((suggestLinksNW content).map (fun s => s.url)).Nodup := by
    unfold suggestLinksNW
    obtain ⟨-, hb2⟩ := nwFold_inv ((splitParas content).enum)
      ((splitParas content).length / 2) ([], []) rfl List.nodup_nil
    have hperm := List.perm_insertionSort nwLE
      (((splitParas content).enum).foldl
        (nwSelectStep ((splitParas content).length / 2)) ([], [])).1
    have hsorted := ((hperm.map (fun s => s.url)).nodup_iff).mpr hb2
    rw [List.map_take]
    exact (List.take_sublist 6 _).nodup hsorted
  refine ⟨h2, h3, h4, hnwnodup, ?_, opps, hs, ?_, ?_⟩
  · unfold suggestLinksNW
    simp [List.length_take]
  · exact (List.sorted_insertionSort oppLE (allOpportunities content)).sublist hs
  · unfold suggestLinks
    rw [he]
    simp

theorem suggestLinks_spec_witness : (suggestLinks [] ).length ≤ 5 :=
  (suggestLinks_spec []).2.1

/-- JS `String.prototype.replace` with a plain-string pattern: replace the
first occurrence only; if the pattern does not occur the string is returned
unchanged. -/
def replaceFirst (s pat repl : List Char) : List Char :=
  match s with
  | [] => []
  | c :: rest =>
    if pat.isPrefixOf (c :: rest) then repl ++ (c :: rest).drop pat.length
    else c :: replaceFirst rest pat repl

/-- Descending-paragraph comparator of `insertLinks`'s
`sort((a, b) => b.paragraph - a.paragraph)`. -/
def descParaLE (a b : LinkSuggestion) : Prop := b.paragraph ≤ a.paragraph

instance : DecidableRel descParaLE := fun a b => by unfold descParaLE; infer_instance

/-- `insertLinks` from `process-batch/index.ts`: walk the chosen insertions
from the last paragraph to the first; skip out-of-range and empty paragraphs
(both falsy in JS) and paragraphs that already link the same URL; otherwise
replace the first occurrence of the anchor text by the markdown link. -/
def insertLinks (content : List Char) (links : List LinkSuggestion) : List Char :=
  let paragraphs := splitParas content
  let sortedLinks := List.insertionSort descParaLE links
  let finalParas := sortedLinks.foldl (fun paras link =>
    match paras.get? link.paragraph with
    | none => paras
    | some para =>
      if para.isEmpty then paras
      else if listContains para (']' :: '(' :: (link.url ++ [')'])) then paras
      else paras.set link.paragraph
        (replaceFirst para link.anchorText (renderLink link.anchorText link.url))) paragraphs
  List.intercalate ['\n', '\n'] finalParas

/-- The write stage's link placement: `suggestLinks` then, when non-empty,
`insertLinks`. -/
def applyLinks (content : List Char) : List Char :=
  let links := suggestLinks content
  if 0 < links.length then insertLinks content links else content

/-- `MIN_ACCEPTABLE_SCORE`. -/
def MIN_ACCEPTABLE_SCORE : ℤ := 60

/-- A writing-fetcher result (`writeBlog`'s title/content/metaDescription). -/
structure BlogResult where
  title : List Char
  content : List Char
  metaDescription : List Char

/-- Environment of one write-stage run: the stored SEO payload and the two
possible writing-fetcher calls (the retry call receives the missing keywords
and the previous score). -/
structure WriteEnv where
  neuronwriterData : Option NeuronWriterAnalysis
  writeFirst : BlogResult
  writeRetry : List (List Char) → ℤ → BlogResult

/-- Observable outcome of `doWriteStep`: how many drafts were generated, the
final linked content that was scored and saved, and the saved score. -/
structure WriteOutcome where
  generations : Nat
  finalContent : List Char
  savedScore : Option ℤ

/-- The scoring-and-retry block of `doWriteStep` (`pipeline.ts` 324–368 and
`process-batch/index.ts` 1500–1531, identical logic): generate, place links,
score; if the score is below `MIN_ACCEPTABLE_SCORE`, regenerate exactly once
with the missing terms and previous score, place links and re-score; save the
last draft and its score. -/
def doWriteStep (env : WriteEnv) : WriteOutcome :=
  let content1 := applyLinks env.writeFirst.content
  match env.neuronwriterData with
  | none => { generations := 1, finalContent := content1, savedScore := none }
  | some nw =>
    let scoreResult := calculateScore content1 nw
    if scoreResult.percentage < MIN_ACCEPTABLE_SCORE then
      let blog2 := env.writeRetry scoreResult.missingTerms scoreResult.percentage
      let content2 := applyLinks blog2.content
      { generations := 2, finalContent := content2,
        savedScore := some (calculateScore content2 nw).percentage }
    else
      { generations := 1, finalContent := content1,
        savedScore := some scoreResult.percentage }

/-- C4: with SEO data present, a first-draft score below 60 triggers exactly
one regeneration (passing the missing terms and the prior score to the
writing fetcher), whose output goes through link placement and re-scoring;
a first-draft score of 60 or above triggers none; at most two generations
ever happen; and the saved score is the score of the last generated draft. -/
theorem doWriteStep_retry_spec (env : WriteEnv) (nw : NeuronWriterAnalysis)
    (h : env.neuronwriterData = some nw) :
    (doWriteStep env).generations ≤ 2 ∧
    ((calculateScore (applyLinks env.writeFirst.content) nw).percentage <
        MIN_ACCEPTABLE_SCORE →
      (doWriteStep env).generations = 2 ∧
      (doWriteStep env).finalContent = applyLinks (env.writeRetry
        (calculateScore (applyLinks env.writeFirst.content) nw).missingTerms
        (calculateScore (applyLinks env.writeFirst.content) nw).percentage).content ∧
      (doWriteStep env).savedScore = some ((calculateScore (applyLinks (env.writeRetry
        (calculateScore (applyLinks env.writeFirst.content) nw).missingTerms
        (calculateScore (applyLinks env.writeFirst.content) nw).percentage).content)
          nw).percentage)) ∧
    (MIN_ACCEPTABLE_SCORE ≤
        (calculateScore (applyLinks env.writeFirst.content) nw).percentage →
      (doWriteStep env).generations = 1 ∧
      (doWriteStep env).finalContent = applyLinks env.writeFirst.content ∧
      (doWriteStep env).savedScore =
        some ((calculateScore (applyLinks env.writeFirst.content) nw).percentage)) := by
  unfold doWriteStep
  rw [h]
  dsimp only
  by_cases hlt : (calculateScore (applyLinks env.writeFirst.content) nw).percentage <
      MIN_ACCEPTABLE_SCORE
  · rw [if_pos hlt]
    refine ⟨?_, fun _ => ⟨rfl, rfl, rfl⟩, fun hge => absurd hlt (not_lt.mpr hge)⟩
    show (2 : Nat) ≤ 2
    omega
  · rw [if_neg hlt]
    refine ⟨?_, fun hl => absurd hl hlt, fun _ => ⟨rfl, rfl, rfl⟩⟩
    show (1 : Nat) ≤ 2
    omega

def c4nw : NeuronWriterAnalysis :=
  { recommendedTerms := [], competitorHeadings := [], wordCountTarget := 0 }

def c4env : WriteEnv :=
  { neuronwriterData := some c4nw
    writeFirst := { title := [], content := [], metaDescription := [] }
    writeRetry := fun _ _ => { title := [], content := [], metaDescription := [] } }

lemma c4_score_eq :
    (calculateScore (applyLinks c4env.writeFirst.content) c4nw).percentage = 100 := by
  have ha : applyLinks c4env.writeFirst.content = [] := by decide
  rw [ha]
  simp only [calculateScore, criticalTermsOf, importantTermsOf, supportingTermsOf, c4nw]
  norm_num [round_eq]

theorem doWriteStep_retry_witness :
    (doWriteStep c4env).generations = 1 ∧
    (doWriteStep c4env).savedScore =
      some ((calculateScore (applyLinks c4env.writeFirst.content) c4nw).percentage) := by
  have h := doWriteStep_retry_spec c4env c4nw rfl
  have hge : MIN_ACCEPTABLE_SCORE ≤
      (calculateScore (applyLinks c4env.writeFirst.content) c4nw).percentage := by
    rw [c4_score_eq]
    decide
  exact ⟨(h.2.2 hge).1, (h.2.2 hge).2.2⟩

inductive JobStatus where
  | pending | researching | analyzing | writing | completed | failed
deriving DecidableEq

/-- The statuses the dispatcher's first query selects
(`in('status', ['researching', 'analyzing', 'writing'])`). -/
def isInProgress : JobStatus → Bool
  | .researching => true
  | .analyzing => true
  | .writing => true
  | _ => false

def isTerminalJob : JobStatus → Bool
  | .completed => true
  | .failed => true
  | _ => false

inductive BatchStatus where
  | pending | running | completed | failed
deriving DecidableEq

/-- The pipeline state the dispatcher reads and writes: one batch's jobs in
creation order (both selection queries order by `created_at` ascending) and
the batch row's counters and status. -/
structure PipelineState where
  jobs : List JobStatus
  completedKeywords : Nat
  failedKeywords : Nat
  totalKeywords : Nat
  batchStatus : BatchStatus
deriving DecidableEq

/-- Outcomes of the three external fetches of one invocation. -/
structure StepOracle where
  researchOk : Bool
  analyzeOk : Bool
  writeOk : Bool

/-- Index of the first list element satisfying `p`. -/
def firstIdxWhere (p : α → Bool) : List α → Option Nat
  | [] => none
  | x :: l => if p x then some 0 else (firstIdxWhere p l).map (· + 1)

/-- `getNextJobToProcess`: the oldest job in `researching`/`analyzing`/
`writing`, else the oldest `pending` job. -/
def getNextJobToProcess (jobs : List JobStatus) : Option Nat :=
  match firstIdxWhere isInProgress jobs with
  | some i => some i
  | none => firstIdxWhere (fun j => j = .pending) jobs

/-- End status of the selected job after one stage handler run:
pending/researching jobs run the research step (to `analyzing`, or `failed`),
analyzing jobs the analyze step (to `writing`, or `failed`), writing jobs the
write step (to `completed`, or `failed`). -/
def jobStepResult (o : StepOracle) : JobStatus → JobStatus
  | .pending => if o.researchOk then .analyzing else .failed
  | .researching => if o.researchOk then .analyzing else .failed
  | .analyzing => if o.analyzeOk then .writing else .failed
  | .writing => if o.writeOk then .completed else .failed
  | s => s

/-- The job-status updates one stage handler performs, in order, each with
the status it overwrites: the research handler first re-marks the job
`researching` and then persists the outcome; the other handlers write only
the outcome. -/
def jobStepTransitions (o : StepOracle) : JobStatus → List (JobStatus × JobStatus)
  | .pending =>
    [(.pending, .researching), (.researching, if o.researchOk then .analyzing else .failed)]
  | .researching =>
    [(.researching, .researching),
      (.researching, if o.researchOk then .analyzing else .failed)]
  | .analyzing => [(.analyzing, if o.analyzeOk then .writing else .failed)]
  | .writing => [(.writing, if o.writeOk then .completed else .failed)]
  | _ => []

/-- What one dispatcher invocation did: the new state, the job-status
transitions performed, and the terminal batch status assigned, if any. -/
structure StepOutput where
  state : PipelineState
  transitions : List (JobStatus × JobStatus)
  finalizedStatus : Option BatchStatus

/-- One invocation of `processOneStep`: mark the batch running; select a job
(resume first, else oldest pending) and run its stage — the write stage alone
increments a batch counter (completed on success, failed on failure; research
and analyze failures increment nothing); with no job to select, finalize the
batch as `failed` when every job failed and `completed` otherwise, as soon as
`completed + failed = total`. -/
def processOneStep (o : StepOracle) (s : PipelineState) : StepOutput :=
  let s1 : PipelineState := { s with batchStatus := .running }
  match getNextJobToProcess s1.jobs with
  | some i =>
    match s1.jobs.get? i with
    | some st =>
      let st' := jobStepResult o st
      { state := { s1 with
          jobs := s1.jobs.set i st'
          completedKeywords :=
            s1.completedKeywords + (if st = .writing ∧ o.writeOk = true then 1 else 0)
          failedKeywords :=
            s1.failedKeywords + (if st = .writing ∧ o.writeOk = false then 1 else 0) }
        transitions := jobStepTransitions o st
        finalizedStatus := none }
    | none => { state := s1, transitions := [], finalizedStatus := none }
  | none =>
    let c := s1.jobs.countP (fun j => j = .completed)
    let f := s1.jobs.countP (fun j => j = .failed)
    if c + f = s1.jobs.length then
      let b := if f = s1.jobs.length then BatchStatus.failed else BatchStatus.completed
      { state := { s1 with batchStatus := b }, transitions := [], finalizedStatus := some b }
    else
      { state := s1, transitions := [], finalizedStatus := none }

/-- A freshly created batch of `n` keywords: one pending job per keyword,
zero counters. -/
def initState (n : Nat) : PipelineState :=
  { jobs := List.replicate n .pending, completedKeywords := 0, failedKeywords := 0,
    totalKeywords := n, batchStatus := .pending }

/-- States reachable from a fresh batch by sequential dispatcher
invocations. -/
inductive Reachable : PipelineState → Prop where
  | init (n : Nat) : Reachable (initState n)
  | step (o : StepOracle) {s : PipelineState} :
      Reachable s → Reachable (processOneStep o s).state

lemma firstIdxWhere_none {α : Type} {p : α → Bool} :
    ∀ {l : List α}, firstIdxWhere p l = none ↔ ∀ x ∈ l, p x = false := by
  intro l
  induction l with
  | nil => simp [firstIdxWhere]
  | cons x l ih =>
    by_cases hx : p x = true
    · simp [firstIdxWhere, hx]
    · simp only [Bool.not_eq_true] at hx
      simp [firstIdxWhere, hx, ih]

lemma firstIdxWhere_some {α : Type} {p : α → Bool} :
    ∀ {l : List α} {i : Nat}, firstIdxWhere p l = some i →
      ∃ h : i < l.length, p (l[i]) = true ∧
        ∀ k, (hk : k < l.length) → k < i → p (l[k]) = false := by
  intro l
  induction l with
  | nil => intro i h; simp [firstIdxWhere] at h
  | cons x l ih =>
    intro i h
    by_cases hx : p x = true
    · simp [firstIdxWhere, hx] at h
      subst h
      exact ⟨by simp, hx, fun k hk hlt => absurd hlt (by omega)⟩
    · simp only [Bool.not_eq_true] at hx
      have hrw : firstIdxWhere p (x :: l) = (firstIdxWhere p l).map (· + 1) := by
        simp [firstIdxWhere, hx]
      rw [hrw, Option.map_eq_some'] at h
      obtain ⟨i', hi', rfl⟩ := h
      obtain ⟨hlen, hp, hbefore⟩ := ih hi'
      refine ⟨by simp; omega, by simpa using hp, ?_⟩
      intro k hk hlt
      cases k with
      | zero => simpa using hx
      | succ k' =>
        have hk' : k' < l.length := by simp at hk; omega
        simpa using hbefore k' hk' (by omega)

lemma selected_not_terminal {jobs : List JobStatus} {i : Nat} {st : JobStatus}
    (hsel : getNextJobToProcess jobs = some i) (hget : jobs.get? i = some st) :
    isInProgress st = true ∨ st = .pending := by
  obtain ⟨hlen, hst⟩ := List.get?_eq_some.1 hget
  unfold getNextJobToProcess at hsel
  cases hfi : firstIdxWhere isInProgress jobs with
  | some i' =>
    rw [hfi] at hsel
    injection hsel with hii
    subst hii
    obtain ⟨h1, h2, -⟩ := firstIdxWhere_some hfi
    left
    rw [← hst]
    simpa using h2
  | none =>
    rw [hfi] at hsel
    obtain ⟨h1, h2, -⟩ := firstIdxWhere_some hsel
    right
    rw [← hst]
    simpa using h2

lemma no_selection_all_terminal {jobs : List JobStatus}
    (hsel : getNextJobToProcess jobs = none) :
    ∀ j ∈ jobs, isTerminalJob j = true := by
  unfold getNextJobToProcess at hsel
  cases hfi : firstIdxWhere isInProgress jobs with
  | some i' => rw [hfi] at hsel; exact absurd hsel (by simp)
  | none =>
    rw [hfi] at hsel
    have h1 := firstIdxWhere_none.1 hfi
    have h2 := firstIdxWhere_none.1 hsel
    intro j hj
    have hip := h1 j hj
    have hpd := h2 j hj
    cases j <;> simp_all [isInProgress, isTerminalJob]

lemma selection_some_not_all_terminal {jobs : List JobStatus} {i : Nat}
    (hsel : getNextJobToProcess jobs = some i) :
    ¬ ∀ j ∈ jobs, isTerminalJob j = true := by
  intro hall
  unfold getNextJobToProcess at hsel
  cases hfi : firstIdxWhere isInProgress jobs with
  | some i' =>
    obtain ⟨hlen, hp, -⟩ := firstIdxWhere_some hfi
    have := hall _ (List.getElem_mem hlen)
    revert hp this
    cases jobs[i'] <;> simp [isInProgress, isTerminalJob]
  | none =>
    rw [hfi] at hsel
    obtain ⟨hlen, hp, -⟩ := firstIdxWhere_some hsel
    have := hall _ (List.getElem_mem hlen)
    revert hp this
    cases jobs[i] <;> simp [isTerminalJob]

lemma countP_set_eq {α : Type} (l : List α) (x : α) (p : α → Bool) :
    ∀ i : Nat, (h : i < l.length) →
      (l.set i x).countP p + (if p (l[i]) = true then 1 else 0) =
        l.countP p + (if p x = true then 1 else 0) := by
  induction l with
  | nil => intro i h; simp at h
  | cons a l ih =>
    intro i h
    cases i with
    | zero => simp [List.countP_cons]; omega
    | succ i' =>
      have h' : i' < l.length := by simp at h; omega
      have := ih i' h'
      simp only [List.set_cons_succ, List.countP_cons, List.getElem_cons_succ]
      omega

lemma terminal_count_le (jobs : List JobStatus) :
    jobs.countP (fun j => j = .completed) + jobs.countP (fun j => j = .failed) ≤
      jobs.length := by
  induction jobs with
  | nil => simp
  | cons j l ih =>
    simp only [List.countP_cons, List.length_cons]
    cases j <;> simp <;> omega

lemma terminal_count_eq_iff (jobs : List JobStatus) :
    jobs.countP (fun j => j = .completed) + jobs.countP (fun j => j = .failed) =
        jobs.length ↔
      ∀ j ∈ jobs, isTerminalJob j = true := by
  induction jobs with
  | nil => simp
  | cons j l ih =>
    have hle := terminal_count_le l
    have hterm : isTerminalJob j = true ↔ (j = .completed ∨ j = .failed) := by
      cases j <;> simp [isTerminalJob]
    simp only [List.countP_cons, List.length_cons, List.mem_cons, forall_eq_or_imp, hterm]
    cases j with
    | completed =>
      simp
      constructor
      · intro hx
        exact ih.1 (by omega)
      · intro hx
        have := ih.2 hx
        omega
    | failed =>
      simp
      constructor
      · intro hx
        exact ih.1 (by omega)
      · intro hx
        have := ih.2 hx
        omega
    | pending => simp; omega
    | researching => simp; omega
    | analyzing => simp; omega
    | writing => simp; omega

/-- Position of a status along the forward chain
pending→researching→analyzing→writing→completed. -/
def statusRank : JobStatus → Nat
  | .pending => 0
  | .researching => 1
  | .analyzing => 2
  | .writing => 3
  | .completed => 4
  | .failed => 5

/-- The transitions the claim permits: from a non-terminal status, either a
jump to `failed`, or a forward move along the chain, where staying in place
is permitted only for the three mid-pipeline statuses (resumption). -/
def allowedTransition (a b : JobStatus) : Prop :=
  isTerminalJob a = false ∧
    (b = .failed ∨
      (statusRank a ≤ statusRank b ∧ statusRank b ≤ 4 ∧
        (statusRank a = statusRank b → isInProgress a = true)))

instance : DecidableRel allowedTransition := fun a b => by
  unfold allowedTransition
  infer_instance

lemma jobStepTransitions_allowed (o : StepOracle) (st : JobStatus)
    (h : isInProgress st = true ∨ st = .pending) :
    ∀ p ∈ jobStepTransitions o st, allowedTransition p.1 p.2 := by
  cases st with
  | pending =>
    intro p hp
    cases hro : o.researchOk <;> simp [jobStepTransitions, hro] at hp <;>
      rcases hp with rfl | rfl <;> decide
  | researching =>
    intro p hp
    cases hro : o.researchOk <;> simp [jobStepTransitions, hro] at hp <;>
      rcases hp with rfl | rfl <;> decide
  | analyzing =>
    intro p hp
    cases hao : o.analyzeOk <;> simp [jobStepTransitions, hao] at hp <;>
      subst hp <;> decide
  | writing =>
    intro p hp
    cases hwo : o.writeOk <;> simp [jobStepTransitions, hwo] at hp <;>
      subst hp <;> decide
  | completed => rcases h with h | h <;> simp [isInProgress] at h
  | failed => rcases h with h | h <;> simp [isInProgress] at h

lemma processOneStep_cases (o : StepOracle) (s : PipelineState) :
    ((processOneStep o s).transitions = [] ∧
      (processOneStep o s).state.jobs = s.jobs) ∨
    ∃ i st, getNextJobToProcess s.jobs = some i ∧ s.jobs.get? i = some st ∧
      (processOneStep o s).transitions = jobStepTransitions o st ∧
      (processOneStep o s).state.jobs = s.jobs.set i (jobStepResult o st) := by
  unfold processOneStep
  dsimp only
  cases hsel : getNextJobToProcess s.jobs with
  | some i =>
    dsimp only
    cases hget : s.jobs.get? i with
    | some st =>
      dsimp only
      exact Or.inr ⟨i, st, rfl, hget, rfl, rfl⟩
    | none => exact Or.inl ⟨rfl, rfl⟩
  | none =>
    left
    dsimp only
    split
    · exact ⟨rfl, rfl⟩
    · exact ⟨rfl, rfl⟩

/-- C7: every job-status transition the dispatcher performs moves forward
along pending→researching→analyzing→writing→completed or jumps to `failed`
from a non-terminal status, re-entering a mid-pipeline status from itself
being the only self-transition; the job list keeps its length, and a job
already in `completed` or `failed` is never touched. -/
theorem job_status_transitions_spec (o : StepOracle) (s : PipelineState) :
    (∀ p ∈ (processOneStep o s).transitions, allowedTransition p.1 p.2) ∧
    (processOneStep o s).state.jobs.length = s.jobs.length ∧
    (∀ k, (hk : k < s.jobs.length) → (hk2 : k < (processOneStep o s).state.jobs.length) →
      isTerminalJob (s.jobs[k]) = true →
      (processOneStep o s).state.jobs[k] = s.jobs[k]) := by
  rcases processOneStep_cases o s with ⟨ht, hj⟩ | ⟨i, st, hsel, hget, ht, hj⟩
  · refine ⟨?_, by rw [hj], ?_⟩
    · rw [ht]
      intro p hp
      simp at hp
    · intro k hk hk2 hterm
      simp [hj]
  · have hnt := selected_not_terminal hsel hget
    obtain ⟨hilen, hival⟩ := List.get?_eq_some.1 hget
    refine ⟨?_, by rw [hj]; simp, ?_⟩
    · rw [ht]
      exact jobStepTransitions_allowed o st hnt
    · intro k hk hk2 hterm
      have hki : i ≠ k := by
        intro hik
        subst hik
        rw [List.get_eq_getElem] at hival
        rw [hival] at hterm
        rcases hnt with hn | hn
        · cases st <;> simp_all [isInProgress, isTerminalJob]
        · subst hn
          simp [isTerminalJob] at hterm
      simp only [hj]
      rw [List.getElem_set_ne hki]

def c7state : PipelineState :=
  { jobs := [.pending], completedKeywords := 0, failedKeywords := 0,
    totalKeywords := 1, batchStatus := .pending }

def c7oracle : StepOracle := { researchOk := true, analyzeOk := true, writeOk := true }

theorem job_status_transitions_witness :
    allowedTransition JobStatus.pending JobStatus.researching :=
  (job_status_transitions_spec c7oracle c7state).1
    (JobStatus.pending, JobStatus.researching) (by decide)

/-- Invariant tying the batch counters to the job statuses: each counter is
bounded by the number of jobs actually in that terminal status (research and
analyze failures mark the job failed without incrementing the counter), and
the total is the number of jobs. -/
def CounterInv (s : PipelineState) : Prop :=
  s.completedKeywords ≤ s.jobs.countP (fun j => j = .completed) ∧
  s.failedKeywords ≤ s.jobs.countP (fun j => j = .failed) ∧
  s.totalKeywords = s.jobs.length

lemma counterInv_init (n : Nat) : CounterInv (initState n) := by
  refine ⟨?_, ?_, ?_⟩ <;> simp [initState]

lemma processOneStep_state_cases (o : StepOracle) (s : PipelineState) :
    ((processOneStep o s).state.jobs = s.jobs ∧
      (processOneStep o s).state.completedKeywords = s.completedKeywords ∧
      (processOneStep o s).state.failedKeywords = s.failedKeywords ∧
      (processOneStep o s).state.totalKeywords = s.totalKeywords) ∨
    ∃ i st, getNextJobToProcess s.jobs = some i ∧ s.jobs.get? i = some st ∧
      (processOneStep o s).state.jobs = s.jobs.set i (jobStepResult o st) ∧
      (processOneStep o s).state.completedKeywords =
        s.completedKeywords + (if st = .writing ∧ o.writeOk = true then 1 else 0) ∧
      (processOneStep o s).state.failedKeywords =
        s.failedKeywords + (if st = .writing ∧ o.writeOk = false then 1 else 0) ∧
      (processOneStep o s).state.totalKeywords = s.totalKeywords := by
  unfold processOneStep
  dsimp only
  cases hsel : getNextJobToProcess s.jobs with
  | some i =>
    dsimp only
    cases hget : s.jobs.get? i with
    | some st =>
      dsimp only
      exact Or.inr ⟨i, st, rfl, hget, rfl, rfl, rfl, rfl⟩
    | none => exact Or.inl ⟨rfl, rfl, rfl, rfl⟩
  | none =>
    left
    dsimp only
    split
    · exact ⟨rfl, rfl, rfl, rfl⟩
    · exact ⟨rfl, rfl, rfl, rfl⟩

lemma counterInv_step (o : StepOracle) (s : PipelineState) (h : CounterInv s) :
    CounterInv (processOneStep o s).state := by
  obtain ⟨hc0, hf0, ht0⟩ := h
  rcases processOneStep_state_cases o s with ⟨hj, hc, hf, ht⟩ |
    ⟨i, st, hsel, hget, hj, hc, hf, ht⟩
  · exact ⟨by rw [hc, hj]; exact hc0, by rw [hf, hj]; exact hf0, by rw [ht, hj]; exact ht0⟩
  · obtain ⟨hi, hival⟩ := List.get?_eq_some.1 hget
    rw [List.get_eq_getElem] at hival
    have hnt := selected_not_terminal hsel hget
    have hstc : st ≠ .completed := by
      rcases hnt with hn | hn
      · cases st <;> simp_all [isInProgress]
      · subst hn; simp
    have hstf : st ≠ .failed := by
      rcases hnt with hn | hn
      · cases st <;> simp_all [isInProgress]
      · subst hn; simp
    have hq1 := countP_set_eq s.jobs (jobStepResult o st)
      (fun j => decide (j = JobStatus.completed)) i hi
    have hq2 := countP_set_eq s.jobs (jobStepResult o st)
      (fun j => decide (j = JobStatus.failed)) i hi
    rw [hival] at hq1 hq2
    simp [hstc] at hq1
    simp [hstf] at hq2
    have e3 : (if st = .writing ∧ o.writeOk = true then 1 else 0) ≤
        (if jobStepResult o st = JobStatus.completed then 1 else 0) := by
      by_cases hw : st = .writing ∧ o.writeOk = true
      · obtain ⟨hw1, hw2⟩ := hw
        subst hw1
        simp [jobStepResult, hw2]
      · simp [hw]
    have e4 : (if st = .writing ∧ o.writeOk = false then 1 else 0) ≤
        (if jobStepResult o st = JobStatus.failed then 1 else 0) := by
      by_cases hw : st = .writing ∧ o.writeOk = false
      · obtain ⟨hw1, hw2⟩ := hw
        subst hw1
        simp [jobStepResult, hw2]
      · simp [hw]
    refine ⟨?_, ?_, ?_⟩
    · rw [hc, hj]
      omega
    · rw [hf, hj]
      omega
    · rw [ht, hj]
      simp [ht0]

lemma counterInv_reachable {s : PipelineState} (h : Reachable s) : CounterInv s := by
  induction h with
  | init n => exact counterInv_init n
  | step o hr ih => exact counterInv_step _ _ ih

lemma all_failed_terminal {jobs : List JobStatus} (h : ∀ j ∈ jobs, j = .failed) :
    ∀ j ∈ jobs, isTerminalJob j = true := by
  intro j hj
  rw [h j hj]
  rfl

lemma not_all_failed_of_not_all_terminal {jobs : List JobStatus}
    (h : ¬ ∀ j ∈ jobs, isTerminalJob j = true) :
    ∃ x ∈ jobs, ¬ x = JobStatus.failed := by
  push_neg at h
  obtain ⟨j, hj, hjt⟩ := h
  refine ⟨j, hj, ?_⟩
  intro he
  subst he
  exact hjt rfl

lemma processOneStep_finalized (o : StepOracle) (s : PipelineState) :
    ((processOneStep o s).finalizedStatus.isSome ↔
      ∀ j ∈ s.jobs, isTerminalJob j = true) ∧
    ((processOneStep o s).finalizedStatus = some .failed ↔ ∀ j ∈ s.jobs, j = .failed) ∧
    ((processOneStep o s).finalizedStatus = some .completed ↔
      ((∀ j ∈ s.jobs, isTerminalJob j = true) ∧ ¬ ∀ j ∈ s.jobs, j = .failed)) := by
  unfold processOneStep
  dsimp only
  cases hsel : getNextJobToProcess s.jobs with
  | some i =>
    have hnot := selection_some_not_all_terminal hsel
    dsimp only
    cases hget : s.jobs.get? i with
    | some st =>
      refine ⟨by simp [hnot], by simp; exact not_all_failed_of_not_all_terminal hnot,
        by simp; intro hall; exact absurd hall hnot⟩
    | none =>
      refine ⟨by simp [hnot], by simp; exact not_all_failed_of_not_all_terminal hnot,
        by simp; intro hall; exact absurd hall hnot⟩
  | none =>
    have hall := no_selection_all_terminal hsel
    have hcf := (terminal_count_eq_iff s.jobs).2 hall
    dsimp only
    rw [if_pos hcf]
    have hfiff : s.jobs.countP (fun j => j = .failed) = s.jobs.length ↔
        ∀ j ∈ s.jobs, j = .failed := by
      rw [List.countP_eq_length]
      simp
    refine ⟨by simpa using hall, ?_, ?_⟩
    · by_cases hf : s.jobs.countP (fun j => j = .failed) = s.jobs.length
      · rw [if_pos hf]
        constructor
        · intro hx2
          exact hfiff.1 hf
        · intro hx2
          rfl
      · simp only [if_neg hf]
        constructor
        · intro hx
          exact absurd hx (by simp)
        · intro hx
          exact absurd (hfiff.2 hx) hf
    · by_cases hf : s.jobs.countP (fun j => j = .failed) = s.jobs.length
      · simp only [if_pos hf]
        constructor
        · intro hx
          exact absurd hx (by simp)
        · intro hx
          exact absurd (hfiff.1 hf) hx.2
      · simp only [if_neg hf]
        constructor
        · intro hx2
          refine ⟨hall, ?_⟩
          intro hx
          exact hf (hfiff.2 hx)
        · intro hx2
          trivial

/-- C8: in every state reachable by sequential dispatcher invocations from a
fresh batch, `completed_keywords + failed_keywords ≤ total_keywords`; and an
invocation assigns the batch a terminal status exactly when every job is in a
terminal state — `failed` exactly when every job failed, `completed`
otherwise (including partial success). -/
theorem batch_progress_spec (s : PipelineState) (h : Reachable s) :
    s.completedKeywords + s.failedKeywords ≤ s.totalKeywords ∧
    ∀ o : StepOracle,
      ((processOneStep o s).finalizedStatus.isSome ↔
        ∀ j ∈ s.jobs, isTerminalJob j = true) ∧
      ((processOneStep o s).finalizedStatus = some .failed ↔
        ∀ j ∈ s.jobs, j = .failed) ∧
      ((processOneStep o s).finalizedStatus = some .completed ↔
        ((∀ j ∈ s.jobs, isTerminalJob j = true) ∧ ¬ ∀ j ∈ s.jobs, j = .failed)) := by
  constructor
  · obtain ⟨h1, h2, h3⟩ := counterInv_reachable h
    have hle := terminal_count_le s.jobs
    omega
  · intro o
    exact processOneStep_finalized o s

theorem batch_progress_witness :
    (initState 1).completedKeywords + (initState 1).failedKeywords ≤
      (initState 1).totalKeywords :=
  (batch_progress_spec (initState 1) (Reachable.init 1)).1

lemma firstIdxWhere_isSome {α : Type} {p : α → Bool} {l : List α}
    (h : ∃ x ∈ l, p x = true) : (firstIdxWhere p l).isSome := by
  cases hfi : firstIdxWhere p l with
  | some i => simp
  | none =>
    obtain ⟨x, hx, hpx⟩ := h
    have := firstIdxWhere_none.1 hfi x hx
    simp [hpx] at this

/-- C9: the dispatcher prefers resuming to starting — when some job is
mid-pipeline (`researching`/`analyzing`/`writing`), the selected job is the
oldest such job, before any pending job; only when none exists is the oldest
pending job selected. -/
theorem dispatcher_prefers_resuming (jobs : List JobStatus) :
    ((∃ j ∈ jobs, isInProgress j = true) →
      ∃ i, ∃ hi : i < jobs.length, getNextJobToProcess jobs = some i ∧
        isInProgress (jobs[i]) = true ∧
        ∀ k, (hk : k < jobs.length) → k < i → isInProgress (jobs[k]) = false) ∧
    ((∀ j ∈ jobs, isInProgress j = false) →
      (∃ j ∈ jobs, j = .pending) →
      ∃ i, ∃ hi : i < jobs.length, getNextJobToProcess jobs = some i ∧
        jobs[i] = .pending ∧
        ∀ k, (hk : k < jobs.length) → k < i → jobs[k] ≠ .pending) := by
  constructor
  · intro hex
    have hsome := firstIdxWhere_isSome hex
    cases hfi : firstIdxWhere isInProgress jobs with
    | none => rw [hfi] at hsome; simp at hsome
    | some i =>
      obtain ⟨hi, hp, hbefore⟩ := firstIdxWhere_some hfi
      refine ⟨i, hi, ?_, hp, hbefore⟩
      unfold getNextJobToProcess
      rw [hfi]
  · intro hnone hex
    have hfi : firstIdxWhere isInProgress jobs = none := firstIdxWhere_none.2 hnone
    have hsome : (firstIdxWhere (fun j => j = JobStatus.pending) jobs).isSome := by
      apply firstIdxWhere_isSome
      obtain ⟨j, hj, hjp⟩ := hex
      exact ⟨j, hj, by simp [hjp]⟩
    cases hfp : firstIdxWhere (fun j => j = JobStatus.pending) jobs with
    | none => rw [hfp] at hsome; simp at hsome
    | some i =>
      obtain ⟨hi, hp, hbefore⟩ := firstIdxWhere_some hfp
      refine ⟨i, hi, ?_, by simpa using hp, ?_⟩
      · unfold getNextJobToProcess
        rw [hfi, hfp]
      · intro k hk hki
        have := hbefore k hk hki
        simpa using this

theorem dispatcher_prefers_resuming_witness :
    ∃ i, ∃ hi : i < ([JobStatus.pending, JobStatus.analyzing] : List JobStatus).length,
      getNextJobToProcess [JobStatus.pending, JobStatus.analyzing] = some i ∧
      isInProgress (([JobStatus.pending, JobStatus.analyzing] : List JobStatus)[i]) = true ∧
      ∀ k, (hk : k < ([JobStatus.pending, JobStatus.analyzing] : List JobStatus).length) →
        k < i →
        isInProgress (([JobStatus.pending, JobStatus.analyzing] : List JobStatus)[k]) = false :=
  (dispatcher_prefers_resuming [JobStatus.pending, JobStatus.analyzing]).1
    ⟨JobStatus.analyzing, by decide, by decide⟩

/-- The spacing property the claim asserts of the link placer, for the
`neuronwriter.ts` suggestion record type: after the first two selections
every further insertion point is at least three paragraphs away from every
earlier-chosen one. -/
def spacingOKNW (l : List LinkSuggestionNW) : Prop :=
  ∀ i j : Nat, (hi : i < l.length) → (hj : j < l.length) → i < j → 2 ≤ j →
    3 ≤ ((l[i].paragraph : Int) - (l[j].paragraph : Int)).natAbs

def c5pad : List Char := List.replicate 50 'あ'

/-- Seven paragraphs; the three in the second half are long enough to
qualify and match the keywords 金利, デビットカード and 相談 of three
distinct catalog pages. -/
def c5doc : List Char :=
  "a\n\nb\n\nc\n\nd\n\n".toList ++ c5pad ++ "金利\n\n".toList ++
    c5pad ++ "デビットカード\n\n".toList ++ c5pad ++ "相談".toList

/-- C5 fails on the code as a statement about both cited implementations:
the `neuronwriter.ts` `suggestLinks` selects at most one link per qualifying
paragraph in paragraph order and applies no proximity constraint — on
`c5doc` it selects insertion points in paragraphs 4, 5 and 6, so the third
selection is only one paragraph away from the second, violating the claimed
three-paragraph spacing rule (and the selections are not produced by a
(priority, paragraph)-ordered greedy scan with that rule). -/
theorem suggestLinksNW_counterexample :
    (suggestLinksNW c5doc).map (fun s => s.paragraph) = [4, 5, 6] ∧
    ¬ spacingOKNW (suggestLinksNW c5doc) := by
  have hlen : (suggestLinksNW c5doc).length = 3 := by decide
  refine ⟨by decide, ?_⟩
  intro h
  have h1 : 1 < (suggestLinksNW c5doc).length := by omega
  have h2 : 2 < (suggestLinksNW c5doc).length := by omega
  have hv := h 1 2 h1 h2 (by omega) (by omega)
  have p1 : ((suggestLinksNW c5doc)[1]?).map (fun s => s.paragraph) = some 5 := by decide
  have p2 : ((suggestLinksNW c5doc)[2]?).map (fun s => s.paragraph) = some 6 := by decide
  rw [List.getElem?_eq_getElem h1] at p1
  rw [List.getElem?_eq_getElem h2] at p2
  simp only [Option.map_some', Option.some.injEq] at p1 p2
  rw [p1, p2] at hv
  omega
